import Mathlib

/-!
Shallow embedding of the chunk-normalization core of
`split_by_silence_and_chunk` (src/main.py lines 38-70; the same code is
duplicated in src/utils.py lines 77-108) and of the per-url batch loop of
`process_csv` (src/main.py lines 89-111).

A pydub `AudioSegment` is modelled at the granularity the algorithm
observes: a list of millisecond frames.  `len(c)` is the list length
(the duration in milliseconds), `c[a:b]` is `(c.drop a).take (b - a)`,
and `+` is list append.  The configuration durations `min_chunk_s` and
`max_chunk_s` are exact rationals (Python float rounding is outside the
model; every concrete value used below is exactly representable).
Both `while` loops are embedded with an explicit fuel argument counting
the remaining iterations; fuel equal to the list length is always enough
for the merge loop, and enough for the split loop whenever
`int(max_chunk_s * 1000) >= 1` (for `int(max_chunk_s * 1000) = 0` the
source loop does not terminate).
-/

abbrev Audio := List Int

/-- `len(c) / 1000.0` : the duration of a chunk in seconds. -/
def durS (c : Audio) : ℚ := (c.length : ℚ) / 1000

/-- Python `int(...)` on a rational: truncation toward zero. -/
def pyInt (q : ℚ) : ℤ := if 0 ≤ q then ⌊q⌋ else ⌈q⌉

/-- `max_ms = int(max_chunk_s * 1000)` (main.py line 61), clamped to `ℕ`
(a negative `max_ms` lies outside the terminating domain of the source
loop, like `max_ms = 0`). -/
def maxMsOf (maxS : ℚ) : ℕ := (pyInt (maxS * 1000)).toNat

/-- Inner merge loop (main.py lines 51-55):
`while j < len(chunks) and (len(merged)/1000.0) < min_chunk_s:
merged += chunks[j]; j += 1`.
Returns the final `merged` together with the unconsumed suffix
`chunks[j:]`. -/
def mergeInner (minS : ℚ) (merged : Audio) : List Audio → Audio × List Audio
  | [] => (merged, [])
  | c :: rest =>
    if durS merged < minS then mergeInner minS (merged ++ c) rest
    else (merged, c :: rest)

/-- Outer merge loop (main.py lines 42-57), with fuel counting the
remaining outer iterations.  Every iteration consumes at least one chunk,
so fuel `chunks.length` always suffices. -/
def mergeLoopAux (minS : ℚ) : ℕ → List Audio → List Audio
  | _, [] => []
  | 0, _ :: _ => []
  | f + 1, c :: rest =>
    if minS ≤ durS c then c :: mergeLoopAux minS f rest
    else
      (mergeInner minS c rest).1 :: mergeLoopAux minS f (mergeInner minS c rest).2

/-- Phase A, the `final_chunks` list (main.py lines 40-57). -/
def mergeLoop (minS : ℚ) (chunks : List Audio) : List Audio :=
  mergeLoopAux minS chunks.length chunks

/-- Split loop (main.py lines 66-70):
`start = 0; while start < len(c): piece = c[start:start+max_ms];
processed.append(piece); start += max_ms`, with fuel; fuel `c.length`
suffices whenever `1 ≤ maxMs`. -/
def splitPiecesAux (maxMs : ℕ) : ℕ → Audio → List Audio
  | _, [] => []
  | 0, _ :: _ => []
  | f + 1, x :: xs =>
    ((x :: xs).take maxMs) :: splitPiecesAux maxMs f ((x :: xs).drop maxMs)

/-- Phase B on one chunk (main.py lines 62-70): keep it if
`len(c) <= max_ms`, otherwise slice it. -/
def splitChunk (maxMs : ℕ) (c : Audio) : List Audio :=
  if c.length ≤ maxMs then [c] else splitPiecesAux maxMs c.length c

/-- Phase B, the `processed` list (main.py lines 59-70). -/
def splitPhase (maxMs : ℕ) (l : List Audio) : List Audio :=
  l.flatMap (splitChunk maxMs)

/-- Phases A and B composed (main.py lines 40-70). -/
def normalizeChunks (minS maxS : ℚ) (segs : List Audio) : List Audio :=
  splitPhase (maxMsOf maxS) (mergeLoop minS segs)

/-- Line 38 (`chunks = [c for c in raw_chunks if len(c) > 0]`) followed by
the normalization of lines 40-70. -/
def pipelineChunks (minS maxS : ℚ) (raw : List Audio) : List Audio :=
  normalizeChunks minS maxS (raw.filter fun c => decide (0 < c.length))

/-- Batch loop of `process_csv` (main.py lines 89-111): the body processing
one url (download, convert, split, export) is abstracted as a `step`
returning `Except`; the `try/except Exception` around the body records the
failure for that url and continues with the rest. -/
def processCsv {U E R : Type} (step : U → Except E R) : List U → List (U × Except E R)
  | [] => []
  | u :: rest => (u, step u) :: processCsv step rest

/-! ### Helper lemmas about the merge loop -/

theorem mergeInner_snd_length (minS : ℚ) :
    ∀ (rest : List Audio) (merged : Audio),
      (mergeInner minS merged rest).2.length ≤ rest.length := by
  intro rest
  induction rest with
  | nil => intro merged; simp [mergeInner]
  | cons c cs ih =>
    intro merged
    by_cases h : durS merged < minS
    · simp only [mergeInner, if_pos h]
      exact Nat.le_succ_of_le (ih (merged ++ c))
    · simp only [mergeInner, if_neg h]
      exact Nat.le_refl _

theorem mergeInner_fst_flatten (minS : ℚ) :
    ∀ (rest : List Audio) (merged : Audio),
      (mergeInner minS merged rest).1 ++ (mergeInner minS merged rest).2.flatten
        = merged ++ rest.flatten := by
  intro rest
  induction rest with
  | nil => intro merged; simp [mergeInner]
  | cons c cs ih =>
    intro merged
    by_cases h : durS merged < minS
    · simp only [mergeInner, if_pos h]
      rw [ih (merged ++ c)]
      simp [List.append_assoc]
    · simp only [mergeInner, if_neg h]

theorem mergeInner_fst_ge (minS : ℚ) :
    ∀ (rest : List Audio) (merged : Audio),
      (mergeInner minS merged rest).2 ≠ [] →
        minS ≤ durS (mergeInner minS merged rest).1 := by
  intro rest
  induction rest with
  | nil => intro merged h; simp [mergeInner] at h
  | cons c cs ih =>
    intro merged h
    by_cases hlt : durS merged < minS
    · simp only [mergeInner, if_pos hlt] at h ⊢
      exact ih (merged ++ c) h
    · simp only [mergeInner, if_neg hlt]
      exact le_of_not_lt hlt

theorem mergeLoopAux_nil (minS : ℚ) (f : ℕ) : mergeLoopAux minS f [] = [] := by
  cases f <;> rfl

theorem mergeLoopAux_congr (minS : ℚ) :
    ∀ (f g : ℕ) (l : List Audio), l.length ≤ f → l.length ≤ g →
      mergeLoopAux minS f l = mergeLoopAux minS g l := by
  intro f
  induction f with
  | zero =>
    intro g l hf _
    rw [List.length_eq_zero.mp (Nat.le_zero.mp hf), mergeLoopAux_nil, mergeLoopAux_nil]
  | succ f ih =>
    intro g l hf hg
    match l, g with
    | [], _ => rw [mergeLoopAux_nil, mergeLoopAux_nil]
    | c :: rest, 0 => exact absurd hg (by simp)
    | c :: rest, g + 1 =>
      simp only [List.length_cons, Nat.add_le_add_iff_right] at hf hg
      by_cases h : minS ≤ durS c
      · simp only [mergeLoopAux, if_pos h]
        rw [ih g rest hf hg]
      · simp only [mergeLoopAux, if_neg h]
        have hlen := mergeInner_snd_length minS rest c
        rw [ih g _ (le_trans hlen hf) (le_trans hlen hg)]

theorem mergeLoop_nil (minS : ℚ) : mergeLoop minS [] = [] := rfl

theorem mergeLoop_cons_ge (minS : ℚ) (c : Audio) (rest : List Audio)
    (h : minS ≤ durS c) : mergeLoop minS (c :: rest) = c :: mergeLoop minS rest := by
  show mergeLoopAux minS (rest.length + 1) (c :: rest) = _
  simp only [mergeLoopAux, if_pos h]
  rfl

theorem mergeLoop_cons_lt (minS : ℚ) (c : Audio) (rest : List Audio)
    (h : ¬ minS ≤ durS c) :
    mergeLoop minS (c :: rest)
      = (mergeInner minS c rest).1 :: mergeLoop minS (mergeInner minS c rest).2 := by
  show mergeLoopAux minS (rest.length + 1) (c :: rest) = _
  simp only [mergeLoopAux, if_neg h]
  rw [mergeLoopAux_congr minS rest.length (mergeInner minS c rest).2.length _
    (mergeInner_snd_length minS rest c) (Nat.le_refl _)]
  rfl

/-! ### Generic list helpers -/

theorem dropLast_cons_ne {α : Type} (a : α) (l : List α) (h : l ≠ []) :
    (a :: l).dropLast = a :: l.dropLast := by
  cases l with
  | nil => exact absurd rfl h
  | cons b t => exact List.dropLast_cons₂

theorem getLast?_cons_ne {α : Type} (a : α) (l : List α) (h : l ≠ []) :
    (a :: l).getLast? = l.getLast? := by
  cases l with
  | nil => exact absurd rfl h
  | cons b t => simp [List.getLast?_cons_cons]

theorem mem_dropLast_cons {α : Type} (a p : α) (l : List α)
    (hp : p ∈ (a :: l).dropLast) : (l ≠ [] ∧ p = a) ∨ p ∈ l.dropLast := by
  cases l with
  | nil => simp [List.dropLast] at hp
  | cons b t =>
    rw [List.dropLast_cons₂, List.mem_cons] at hp
    rcases hp with h | h
    · exact Or.inl ⟨by simp, h⟩
    · exact Or.inr h

/-! ### Helper lemmas about the split loop -/

theorem splitPiecesAux_nil (m f : ℕ) : splitPiecesAux m f [] = [] := by
  cases f <;> rfl

theorem splitPiecesAux_step (m f : ℕ) (c : Audio) (hc : c ≠ []) (hf : f ≠ 0) :
    splitPiecesAux m f c = c.take m :: splitPiecesAux m (f - 1) (c.drop m) := by
  match f, hf, c, hc with
  | f + 1, _, x :: xs, _ => rfl

theorem splitPiecesAux_mem_le (m : ℕ) :
    ∀ (f : ℕ) (c : Audio), ∀ p ∈ splitPiecesAux m f c, p.length ≤ m := by
  intro f
  induction f with
  | zero => intro c p hp; cases c <;> simp [splitPiecesAux] at hp
  | succ f ih =>
    intro c p hp
    cases c with
    | nil => simp [splitPiecesAux] at hp
    | cons x xs =>
      simp only [splitPiecesAux, List.mem_cons] at hp
      rcases hp with h | h
      · subst h; rw [List.length_take]; exact min_le_left _ _
      · exact ih _ p h

theorem splitPiecesAux_flatten (m : ℕ) (hm : 1 ≤ m) :
    ∀ (f : ℕ) (c : Audio), c.length ≤ f → (splitPiecesAux m f c).flatten = c := by
  intro f
  induction f with
  | zero => intro c hc; rw [List.length_eq_zero.mp (Nat.le_zero.mp hc)]; rfl
  | succ f ih =>
    intro c hc
    cases c with
    | nil => rfl
    | cons x xs =>
      have hd : ((x :: xs).drop m).length ≤ f := by
        rw [List.length_drop]
        simp only [List.length_cons] at hc ⊢
        omega
      simp only [splitPiecesAux, List.flatten_cons]
      rw [ih _ hd, List.take_append_drop]

theorem splitPiecesAux_congr (m : ℕ) (hm : 1 ≤ m) :
    ∀ (f g : ℕ) (c : Audio), c.length ≤ f → c.length ≤ g →
      splitPiecesAux m f c = splitPiecesAux m g c := by
  intro f
  induction f with
  | zero =>
    intro g c hf _
    rw [List.length_eq_zero.mp (Nat.le_zero.mp hf), splitPiecesAux_nil, splitPiecesAux_nil]
  | succ f ih =>
    intro g c hf hg
    match c, g with
    | [], _ => rw [splitPiecesAux_nil, splitPiecesAux_nil]
    | x :: xs, 0 => exact absurd hg (by simp)
    | x :: xs, g + 1 =>
      simp only [splitPiecesAux]
      congr 1
      apply ih
      · rw [List.length_drop]; simp only [List.length_cons] at hf ⊢; omega
      · rw [List.length_drop]; simp only [List.length_cons] at hg ⊢; omega

theorem splitPiecesAux_ne_nil (m f : ℕ) (x : Int) (xs : Audio) (hf : 1 ≤ f) :
    splitPiecesAux m f (x :: xs) ≠ [] := by
  match f, hf with
  | f + 1, _ => simp [splitPiecesAux]

theorem splitPiecesAux_shape (m : ℕ) (hm : 1 ≤ m) :
    ∀ (f : ℕ) (c : Audio), c ≠ [] → c.length ≤ f →
      (∀ p ∈ (splitPiecesAux m f c).dropLast, p.length = m) ∧
      (∀ l, (splitPiecesAux m f c).getLast? = some l → 0 < l.length ∧ l.length ≤ m) := by
  intro f
  induction f with
  | zero =>
    intro c hc hf
    exact absurd (List.length_eq_zero.mp (Nat.le_zero.mp hf)) hc
  | succ f ih =>
    intro c hc hf
    cases c with
    | nil => exact absurd rfl hc
    | cons x xs =>
      by_cases hsmall : (x :: xs).length ≤ m
      · have hdrop : (x :: xs).drop m = [] := List.drop_eq_nil_of_le hsmall
        simp only [splitPiecesAux, hdrop, splitPiecesAux_nil,
          List.take_of_length_le hsmall]
        constructor
        · intro p hp; simp [List.dropLast] at hp
        · intro l hl
          rw [List.getLast?_singleton] at hl
          cases hl
          exact ⟨by simp, hsmall⟩
      · push_neg at hsmall
        have hdne : (x :: xs).drop m ≠ [] := by
          intro h
          have h2 := congrArg List.length h
          rw [List.length_drop] at h2
          simp only [List.length_nil] at h2
          omega
        have hdlen : ((x :: xs).drop m).length ≤ f := by
          rw [List.length_drop]
          simp only [List.length_cons] at hf ⊢
          omega
        have hrecne : splitPiecesAux m f ((x :: xs).drop m) ≠ [] := by
          match hdd : (x :: xs).drop m, hdne with
          | y :: ys, _ =>
            apply splitPiecesAux_ne_nil
            rw [hdd] at hdlen
            simp only [List.length_cons] at hdlen
            omega
        obtain ⟨ihd, ihl⟩ := ih _ hdne hdlen
        simp only [splitPiecesAux]
        constructor
        · intro p hp
          rw [dropLast_cons_ne _ _ hrecne, List.mem_cons] at hp
          rcases hp with h | h
          · subst h
            rw [List.length_take]
            exact Nat.min_eq_left (Nat.le_of_lt hsmall)
          · exact ihd p h
        · intro l hl
          rw [getLast?_cons_ne _ _ hrecne] at hl
          exact ihl l hl

theorem splitPiecesAux_two (m f : ℕ) (c : Audio) (hm : 1 ≤ m) (hlt : m < c.length)
    (hf : c.length ≤ f) : 2 ≤ (splitPiecesAux m f c).length := by
  match f, c with
  | 0, c => omega
  | f + 1, [] => simp at hlt
  | f + 1, x :: xs =>
    have hdne : (x :: xs).drop m ≠ [] := by
      intro h
      have h2 := congrArg List.length h
      rw [List.length_drop] at h2
      simp only [List.length_nil] at h2
      omega
    have hdlen : ((x :: xs).drop m).length ≤ f := by
      rw [List.length_drop]
      simp only [List.length_cons] at hf ⊢
      omega
    have hrecne : splitPiecesAux m f ((x :: xs).drop m) ≠ [] := by
      match hdd : (x :: xs).drop m, hdne with
      | y :: ys, _ =>
        apply splitPiecesAux_ne_nil
        rw [hdd] at hdlen
        simp only [List.length_cons] at hdlen
        omega
    simp only [splitPiecesAux, List.length_cons]
    have := List.length_pos.mpr hrecne
    omega

theorem splitChunk_small (m : ℕ) (c : Audio) (h : c.length ≤ m) :
    splitChunk m c = [c] := by
  simp [splitChunk, if_pos h]

theorem splitChunk_flatten (m : ℕ) (hm : 1 ≤ m) (c : Audio) :
    (splitChunk m c).flatten = c := by
  by_cases h : c.length ≤ m
  · rw [splitChunk_small m c h]; simp
  · rw [splitChunk, if_neg h]
    exact splitPiecesAux_flatten m hm c.length c (le_refl _)

theorem splitChunk_mem_le (m : ℕ) (c : Audio) : ∀ p ∈ splitChunk m c, p.length ≤ m := by
  intro p hp
  by_cases h : c.length ≤ m
  · rw [splitChunk_small m c h, List.mem_singleton] at hp
    rw [hp]; exact h
  · rw [splitChunk, if_neg h] at hp
    exact splitPiecesAux_mem_le m c.length c p hp

/-! ### Global lemmas about Phase A -/

theorem mergeLoopAux_flatten (minS : ℚ) :
    ∀ (f : ℕ) (l : List Audio), l.length ≤ f →
      (mergeLoopAux minS f l).flatten = l.flatten := by
  intro f
  induction f with
  | zero => intro l h; rw [List.length_eq_zero.mp (Nat.le_zero.mp h)]; rfl
  | succ f ih =>
    intro l h
    cases l with
    | nil => rfl
    | cons c rest =>
      simp only [List.length_cons, Nat.add_le_add_iff_right] at h
      by_cases hge : minS ≤ durS c
      · simp only [mergeLoopAux, if_pos hge, List.flatten_cons, ih rest h]
      · simp only [mergeLoopAux, if_neg hge, List.flatten_cons]
        rw [ih _ (le_trans (mergeInner_snd_length minS rest c) h),
          mergeInner_fst_flatten minS rest c]

theorem mergeLoop_flatten (minS : ℚ) (l : List Audio) :
    (mergeLoop minS l).flatten = l.flatten :=
  mergeLoopAux_flatten minS l.length l (le_refl _)

theorem mergeLoopAux_all_ge (minS : ℚ) :
    ∀ (f : ℕ) (l : List Audio), l.length ≤ f → (∀ c ∈ l, minS ≤ durS c) →
      mergeLoopAux minS f l = l := by
  intro f
  induction f with
  | zero => intro l h _; rw [List.length_eq_zero.mp (Nat.le_zero.mp h)]; rfl
  | succ f ih =>
    intro l h hall
    cases l with
    | nil => rfl
    | cons c rest =>
      simp only [List.length_cons, Nat.add_le_add_iff_right] at h
      have hc : minS ≤ durS c := hall c (List.mem_cons_self c rest)
      simp only [mergeLoopAux, if_pos hc]
      rw [ih rest h (fun d hd => hall d (List.mem_cons_of_mem c hd))]

theorem mergeLoopAux_dropLast_ge (minS : ℚ) :
    ∀ (f : ℕ) (l : List Audio), l.length ≤ f →
      ∀ p ∈ (mergeLoopAux minS f l).dropLast, minS ≤ durS p := by
  intro f
  induction f with
  | zero =>
    intro l h p hp
    rw [List.length_eq_zero.mp (Nat.le_zero.mp h)] at hp
    simp [mergeLoopAux_nil, List.dropLast] at hp
  | succ f ih =>
    intro l h p hp
    cases l with
    | nil => simp [mergeLoopAux_nil, List.dropLast] at hp
    | cons c rest =>
      simp only [List.length_cons, Nat.add_le_add_iff_right] at h
      by_cases hge : minS ≤ durS c
      · simp only [mergeLoopAux, if_pos hge] at hp
        rcases mem_dropLast_cons _ _ _ hp with ⟨_, hpc⟩ | hmem
        · rw [hpc]; exact hge
        · exact ih rest h p hmem
      · simp only [mergeLoopAux, if_neg hge] at hp
        rcases mem_dropLast_cons _ _ _ hp with ⟨hne, hpc⟩ | hmem
        · rw [hpc]
          apply mergeInner_fst_ge minS rest c
          intro h2
          rw [h2, mergeLoopAux_nil] at hne
          exact hne rfl
        · exact ih _ (le_trans (mergeInner_snd_length minS rest c) h) p hmem

/-- The inner merge loop computes exactly the greedy least-`k` absorption:
it consumes the shortest prefix of `rest` whose concatenation onto `merged`
reaches `min_chunk_s`, or all of `rest` if no prefix does. -/
theorem mergeInner_spec (minS : ℚ) :
    ∀ (rest : List Audio) (merged : Audio),
      ∃ k ≤ rest.length,
        mergeInner minS merged rest = (merged ++ (rest.take k).flatten, rest.drop k) ∧
        (minS ≤ durS (merged ++ (rest.take k).flatten) ∨ k = rest.length) ∧
        ∀ j < k, durS (merged ++ (rest.take j).flatten) < minS := by
  intro rest
  induction rest with
  | nil =>
    intro merged
    exact ⟨0, le_refl _, by simp [mergeInner], Or.inr rfl, by omega⟩
  | cons c cs ih =>
    intro merged
    by_cases h : durS merged < minS
    · obtain ⟨k, hk, heq, hstop, hmin⟩ := ih (merged ++ c)
      refine ⟨k + 1, by simpa using Nat.succ_le_succ hk, ?_, ?_, ?_⟩
      · simp only [mergeInner, if_pos h, List.take_succ_cons, List.flatten_cons,
          List.drop_succ_cons]
        rw [heq, ← List.append_assoc]
      · simp only [List.take_succ_cons, List.flatten_cons, List.length_cons]
        rw [← List.append_assoc]
        rcases hstop with h1 | h1
        · exact Or.inl h1
        · exact Or.inr (by omega)
      · intro j hj
        cases j with
        | zero => simpa using h
        | succ j =>
          simp only [List.take_succ_cons, List.flatten_cons]
          rw [← List.append_assoc]
          exact hmin j (by omega)
    · refine ⟨0, Nat.zero_le _, ?_, Or.inl (by simpa using le_of_not_lt h), by omega⟩
      simp [mergeInner, if_neg h]

/-! ### Numeric bridges between millisecond lengths and second durations -/

theorem durS_le_iff (c : Audio) (q : ℚ) : durS c ≤ q ↔ (c.length : ℚ) ≤ q * 1000 := by
  rw [durS, div_le_iff₀ (by norm_num : (0:ℚ) < 1000)]

theorem le_durS_iff (c : Audio) (q : ℚ) : q ≤ durS c ↔ q * 1000 ≤ (c.length : ℚ) := by
  rw [durS, le_div_iff₀ (by norm_num : (0:ℚ) < 1000)]

theorem lt_durS_iff (c : Audio) (q : ℚ) : q < durS c ↔ q * 1000 < (c.length : ℚ) := by
  rw [durS, lt_div_iff₀ (by norm_num : (0:ℚ) < 1000)]

theorem durS_nonneg (c : Audio) : 0 ≤ durS c := by
  rw [durS]
  positivity

theorem durS_pos (c : Audio) (h : 0 < c.length) : 0 < durS c := by
  rw [durS]
  have : (0:ℚ) < (c.length : ℚ) := by exact_mod_cast h
  positivity

theorem maxMsOf_cast_le (maxS : ℚ) (hm : 1 ≤ maxMsOf maxS) :
    ((maxMsOf maxS : ℕ) : ℚ) ≤ maxS * 1000 := by
  unfold maxMsOf pyInt at *
  by_cases h : 0 ≤ maxS * 1000
  · rw [if_pos h] at hm ⊢
    have hfl : 0 ≤ ⌊maxS * 1000⌋ := Int.floor_nonneg.mpr h
    have hcast : ((⌊maxS * 1000⌋.toNat : ℕ) : ℚ) = ((⌊maxS * 1000⌋ : ℤ) : ℚ) := by
      rw [← Int.toNat_of_nonneg hfl]
      push_cast
      rw [Int.toNat_of_nonneg hfl]
    rw [hcast]
    exact Int.floor_le _
  · rw [if_neg h] at hm
    push_neg at h
    have hceil : ⌈maxS * 1000⌉ ≤ 0 := by
      have : maxS * 1000 ≤ ((0:ℤ) : ℚ) := by exact_mod_cast le_of_lt h
      exact Int.ceil_le.mpr this
    omega

theorem length_le_maxMsOf (maxS : ℚ) (c : Audio) (h : durS c ≤ maxS) :
    c.length ≤ maxMsOf maxS := by
  have hlen : (c.length : ℚ) ≤ maxS * 1000 := (durS_le_iff c maxS).mp h
  have h0 : (0:ℚ) ≤ maxS * 1000 := le_trans (by positivity) hlen
  have hfl : (c.length : ℤ) ≤ ⌊maxS * 1000⌋ := Int.le_floor.mpr (by exact_mod_cast hlen)
  unfold maxMsOf pyInt
  rw [if_pos h0]
  omega

/-! ### Phase B over a list of chunks -/

theorem splitPhase_nil (m : ℕ) : splitPhase m [] = [] := rfl

theorem splitPhase_cons (m : ℕ) (c : Audio) (l : List Audio) :
    splitPhase m (c :: l) = splitChunk m c ++ splitPhase m l :=
  List.flatMap_cons c l (splitChunk m)

theorem splitPhase_all_small (m : ℕ) :
    ∀ (l : List Audio), (∀ c ∈ l, c.length ≤ m) → splitPhase m l = l := by
  intro l
  induction l with
  | nil => intro _; rfl
  | cons c rest ih =>
    intro h
    rw [splitPhase_cons, splitChunk_small m c (h c (List.mem_cons_self c rest)),
      ih (fun d hd => h d (List.mem_cons_of_mem c hd))]
    rfl

theorem splitPhase_mem_le (m : ℕ) (l : List Audio) :
    ∀ p ∈ splitPhase m l, p.length ≤ m := by
  intro p hp
  obtain ⟨a, _, hpa⟩ := List.mem_flatMap.mp hp
  exact splitChunk_mem_le m a p hpa

/-! ### Helper lemmas about the batch loop -/

theorem processCsv_append {U E R : Type} (step : U → Except E R) :
    ∀ (a b : List U), processCsv step (a ++ b) = processCsv step a ++ processCsv step b := by
  intro a b
  induction a with
  | nil => rfl
  | cons u rest ih =>
    simp only [List.cons_append, processCsv]
    rw [show rest.append b = rest ++ b from rfl, ih]

theorem processCsv_map_fst {U E R : Type} (step : U → Except E R) :
    ∀ (l : List U), (processCsv step l).map Prod.fst = l := by
  intro l
  induction l with
  | nil => rfl
  | cons u rest ih => simp only [processCsv, List.map_cons, ih]

/-! ### Claims -/

/-- Claim C1: Phase A merge-forward.  For every list of segments the merge
loop walks left to right: a segment whose duration meets `min_chunk_s` is
emitted as-is in input order, and an undersized segment starts an
accumulator that concatenates the following segments until the accumulated
duration reaches `min_chunk_s` or the input is exhausted (the consumed
prefix is the shortest one that reaches the bound), after which the
accumulated chunk is emitted and the scan resumes after the last consumed
segment.  In particular segments of durations 1.0 s, 1.0 s, 1.5 s with
`min_chunk_s = 3.0` produce exactly one merged chunk of 3.5 s. -/
theorem claim1_merge_forward (minS : ℚ) (c : Audio) (rest : List Audio) :
    (minS ≤ durS c → mergeLoop minS (c :: rest) = c :: mergeLoop minS rest) ∧
    (durS c < minS → ∃ k ≤ rest.length,
      mergeLoop minS (c :: rest)
        = (c ++ (rest.take k).flatten) :: mergeLoop minS (rest.drop k) ∧
      (minS ≤ durS (c ++ (rest.take k).flatten) ∨ k = rest.length) ∧
      ∀ j < k, durS (c ++ (rest.take j).flatten) < minS) ∧
    mergeLoop 3 [List.replicate 1000 0, List.replicate 1000 0, List.replicate 1500 0]
      = [List.replicate 3500 0] ∧
    durS (List.replicate 3500 0) = 7/2 := by
  refine ⟨mergeLoop_cons_ge minS c rest, ?_, ?_, by norm_num [durS]⟩
  · intro hlt
    obtain ⟨k, hk, heq, hstop, hmin⟩ := mergeInner_spec minS rest c
    refine ⟨k, hk, ?_, hstop, hmin⟩
    rw [mergeLoop_cons_lt minS c rest (not_le_of_lt hlt), heq]
  · rw [mergeLoop_cons_lt 3 _ _ (by norm_num [durS])]
    norm_num [mergeInner, durS]
    rw [mergeLoop_nil]

theorem claim1_merge_forward_wit :
    (3:ℚ) ≤ durS (List.replicate 4000 (0:Int)) ∧
    mergeLoop 3 [List.replicate 4000 (0:Int)] = [List.replicate 4000 0] :=
  ⟨by norm_num [durS],
   (claim1_merge_forward 3 (List.replicate 4000 0) []).1 (by norm_num [durS])⟩

/-- Claim C5: the Phase-B split is lossless: concatenating, in order, the
pieces sliced from any chunk reconstructs that chunk exactly (same frames,
hence same duration), provided the slice width `int(max_chunk_s * 1000)`
is at least 1 (otherwise the source loop does not terminate). -/
theorem claim5_split_lossless (maxS : ℚ) (c : Audio) (hm : 1 ≤ maxMsOf maxS) :
    (splitChunk (maxMsOf maxS) c).flatten = c :=
  splitChunk_flatten (maxMsOf maxS) hm c

theorem claim5_split_lossless_wit :
    1 ≤ maxMsOf 8 ∧
    (splitChunk (maxMsOf 8) (List.replicate 17500 (0:Int))).flatten
      = List.replicate 17500 0 :=
  ⟨by norm_num [maxMsOf, pyInt],
   claim5_split_lossless 8 (List.replicate 17500 0) (by norm_num [maxMsOf, pyInt])⟩

/-- Claim C6: idempotence.  On a sequence in which every chunk's duration
already lies within `[min_chunk_s, max_chunk_s]`, the merge-forward and
split-oversized normalization returns the sequence unchanged. -/
theorem claim6_idempotent (minS maxS : ℚ) (l : List Audio)
    (hall : ∀ c ∈ l, minS ≤ durS c ∧ durS c ≤ maxS) :
    normalizeChunks minS maxS l = l := by
  unfold normalizeChunks
  rw [show mergeLoop minS l = l from
    mergeLoopAux_all_ge minS l.length l (le_refl _) (fun c hc => (hall c hc).1)]
  exact splitPhase_all_small (maxMsOf maxS) l
    (fun c hc => length_le_maxMsOf maxS c (hall c hc).2)

theorem claim6_idempotent_wit :
    (∀ c ∈ [List.replicate 4000 (0:Int)], 3 ≤ durS c ∧ durS c ≤ 8) ∧
    normalizeChunks 3 8 [List.replicate 4000 (0:Int)] = [List.replicate 4000 0] :=
  ⟨by intro c hc; rw [List.mem_singleton] at hc; subst hc; constructor <;> norm_num [durS],
   claim6_idempotent 3 8 [List.replicate 4000 0]
     (by intro c hc; rw [List.mem_singleton] at hc; subst hc; constructor <;> norm_num [durS])⟩

/-- Claim C7: single-pass conservation.  Phase A consumes every input
segment exactly once in one forward pass and emits a trailing undersized
residue rather than discarding it, so the concatenation of its outputs
equals the concatenation of its inputs; moreover a nonempty input never
produces an empty output. -/
theorem claim7_single_pass_conservation (minS : ℚ) (segs : List Audio) :
    (mergeLoop minS segs).flatten = segs.flatten ∧
    (segs ≠ [] → mergeLoop minS segs ≠ []) := by
  refine ⟨mergeLoop_flatten minS segs, ?_⟩
  intro hne
  cases segs with
  | nil => exact absurd rfl hne
  | cons c rest =>
    by_cases h : minS ≤ durS c
    · rw [mergeLoop_cons_ge minS c rest h]
      exact List.cons_ne_nil _ _
    · rw [mergeLoop_cons_lt minS c rest h]
      exact List.cons_ne_nil _ _

theorem claim7_single_pass_conservation_wit :
    ([List.replicate 10 (0:Int)] : List Audio) ≠ [] ∧
    mergeLoop 3 [List.replicate 10 (0:Int)] ≠ [] :=
  ⟨by simp, (claim7_single_pass_conservation 3 [List.replicate 10 0]).2 (by simp)⟩

/-- Claim C3: output duration bounds.  Whenever the slice width
`int(max_chunk_s * 1000)` is at least 1, (i) every chunk of the
normalizer's output has duration at most `max_chunk_s`; (ii) every
non-trailing Phase-A chunk has duration at least `min_chunk_s`; and
(iii) a Phase-A chunk that is not oversized passes through Phase B as
itself, so every output chunk that is neither the trailing chunk nor a
piece produced by Phase-B splitting has duration at least `min_chunk_s`. -/
theorem claim3_output_bounds (minS maxS : ℚ) (segs : List Audio)
    (hm : 1 ≤ maxMsOf maxS) :
    (∀ p ∈ normalizeChunks minS maxS segs, durS p ≤ maxS) ∧
    (∀ p ∈ (mergeLoop minS segs).dropLast, minS ≤ durS p) ∧
    (∀ c ∈ mergeLoop minS segs, c.length ≤ maxMsOf maxS →
      splitChunk (maxMsOf maxS) c = [c]) := by
  refine ⟨?_, ?_, ?_⟩
  · intro p hp
    have hlen : p.length ≤ maxMsOf maxS := splitPhase_mem_le (maxMsOf maxS) _ p hp
    rw [durS_le_iff]
    calc (p.length : ℚ) ≤ ((maxMsOf maxS : ℕ) : ℚ) := by exact_mod_cast hlen
      _ ≤ maxS * 1000 := maxMsOf_cast_le maxS hm
  · exact mergeLoopAux_dropLast_ge minS segs.length segs (le_refl _)
  · intro c _ hc
    exact splitChunk_small (maxMsOf maxS) c hc

theorem claim3_output_bounds_wit :
    1 ≤ maxMsOf 8 ∧
    ((∀ p ∈ normalizeChunks 3 8 [List.replicate 500 (0:Int), List.replicate 9000 0],
        durS p ≤ 8) ∧
     (∀ p ∈ (mergeLoop 3 [List.replicate 500 (0:Int), List.replicate 9000 0]).dropLast,
        3 ≤ durS p) ∧
     (∀ c ∈ mergeLoop 3 [List.replicate 500 (0:Int), List.replicate 9000 0],
        c.length ≤ maxMsOf 8 → splitChunk (maxMsOf 8) c = [c])) :=
  ⟨by norm_num [maxMsOf, pyInt],
   claim3_output_bounds 3 8 [List.replicate 500 0, List.replicate 9000 0]
     (by norm_num [maxMsOf, pyInt])⟩

/-- Claim C2 counterexample: with `max_chunk_s = 5/2000` (i.e. 0.0025 s,
so `max_ms = int(2.5) = 2`), a 3 ms chunk has duration `0.003 > 0.0025`
and is split into two pieces whose first — a non-final piece — lasts
`0.002 s ≠ 0.0025 s`: the non-final pieces are `int(max_chunk_s * 1000)`
milliseconds long, not exactly `max_chunk_s` seconds as claimed. -/
theorem claim2_counterexample :
    maxMsOf (5/2000) = 2 ∧
    5/2000 < durS (List.replicate 3 (0:Int)) ∧
    splitChunk 2 (List.replicate 3 (0:Int)) = [List.replicate 2 0, [0]] ∧
    durS (List.replicate 2 (0:Int)) ≠ 5/2000 := by
  refine ⟨?_, ?_, by decide, ?_⟩
  · norm_num [maxMsOf, pyInt]
    rfl
  · norm_num [durS]
  · norm_num [durS]

/-- Claim C2 (amended): Phase B split-oversized.  Whenever the slice width
`m = int(max_chunk_s * 1000)` is at least 1, a chunk whose duration exceeds
`max_chunk_s` is sliced into at least two consecutive pieces, all of
exactly `m` milliseconds except the final piece, which holds the remainder
with duration in `(0, max_chunk_s]`; concatenating the pieces in order
restores the chunk.  When `max_chunk_s * 1000` is an integer the non-final
pieces last exactly `max_chunk_s` seconds.  A chunk whose duration is
exactly `max_chunk_s` is not split.  Each chunk is treated independently
(`splitPhase` is a `flatMap`), preserving order. -/
theorem claim2_split_oversized (maxS : ℚ) (c c2 : Audio)
    (hm : 1 ≤ maxMsOf maxS) :
    (maxS < durS c →
      (∀ p ∈ (splitChunk (maxMsOf maxS) c).dropLast, p.length = maxMsOf maxS) ∧
      (∀ l, (splitChunk (maxMsOf maxS) c).getLast? = some l →
        0 < durS l ∧ durS l ≤ maxS) ∧
      2 ≤ (splitChunk (maxMsOf maxS) c).length ∧
      (splitChunk (maxMsOf maxS) c).flatten = c) ∧
    (durS c2 = maxS → splitChunk (maxMsOf maxS) c2 = [c2]) := by
  constructor
  · intro hover
    have hmle : ((maxMsOf maxS : ℕ) : ℚ) ≤ maxS * 1000 := maxMsOf_cast_le maxS hm
    have hltq : maxS * 1000 < (c.length : ℚ) := (lt_durS_iff c maxS).mp hover
    have hmlt : maxMsOf maxS < c.length := by exact_mod_cast lt_of_le_of_lt hmle hltq
    have hnotle : ¬ c.length ≤ maxMsOf maxS := not_le_of_lt hmlt
    have hcne : c ≠ [] := by
      intro h
      rw [h] at hmlt
      simp at hmlt
    have hsplit : splitChunk (maxMsOf maxS) c = splitPiecesAux (maxMsOf maxS) c.length c := by
      rw [splitChunk, if_neg hnotle]
    obtain ⟨hd, hl⟩ := splitPiecesAux_shape (maxMsOf maxS) hm c.length c hcne (le_refl _)
    refine ⟨?_, ?_, ?_, ?_⟩
    · intro p hp
      rw [hsplit] at hp
      exact hd p hp
    · intro l hlast
      rw [hsplit] at hlast
      obtain ⟨h1, h2⟩ := hl l hlast
      refine ⟨durS_pos l h1, ?_⟩
      rw [durS_le_iff]
      calc (l.length : ℚ) ≤ ((maxMsOf maxS : ℕ) : ℚ) := by exact_mod_cast h2
        _ ≤ maxS * 1000 := hmle
    · rw [hsplit]
      exact splitPiecesAux_two (maxMsOf maxS) c.length c hm hmlt (le_refl _)
    · exact splitChunk_flatten (maxMsOf maxS) hm c
  · intro heq
    exact splitChunk_small _ c2 (length_le_maxMsOf maxS c2 (le_of_eq heq))

theorem claim2_split_oversized_wit :
    1 ≤ maxMsOf 8 ∧ (8:ℚ) < durS (List.replicate 17500 (0:Int)) ∧
    ((∀ p ∈ (splitChunk (maxMsOf 8) (List.replicate 17500 (0:Int))).dropLast,
        p.length = maxMsOf 8) ∧
     (∀ l, (splitChunk (maxMsOf 8) (List.replicate 17500 (0:Int))).getLast? = some l →
        0 < durS l ∧ durS l ≤ 8) ∧
     2 ≤ (splitChunk (maxMsOf 8) (List.replicate 17500 (0:Int))).length ∧
     (splitChunk (maxMsOf 8) (List.replicate 17500 (0:Int))).flatten
        = List.replicate 17500 0) ∧
    splitChunk 8000 (List.replicate 17500 (0:Int))
      = [List.replicate 8000 0, List.replicate 8000 0, List.replicate 1500 0] :=
  ⟨by norm_num [maxMsOf, pyInt],
   by norm_num [durS],
   (claim2_split_oversized 8 (List.replicate 17500 0) []
     (by norm_num [maxMsOf, pyInt])).1 (by norm_num [durS]),
   by
    rw [splitChunk, if_neg (by rw [List.length_replicate]; norm_num), List.length_replicate]
    rw [splitPiecesAux_step 8000 17500 _
      (by rw [Ne, List.replicate_eq_nil_iff]; norm_num) (by norm_num)]
    rw [List.take_replicate, List.drop_replicate]
    norm_num
    rw [splitPiecesAux_step 8000 17499 _
      (by rw [Ne, List.replicate_eq_nil_iff]; norm_num) (by norm_num)]
    rw [List.take_replicate, List.drop_replicate]
    norm_num
    rw [splitPiecesAux_step 8000 17498 _
      (by rw [Ne, List.replicate_eq_nil_iff]; norm_num) (by norm_num)]
    rw [List.take_replicate, List.drop_replicate]
    norm_num
    rw [splitPiecesAux_nil]⟩

/-- Claim C4 evaluation: the source contains no configuration validation.
With `min_chunk_s = 5.0`, `max_chunk_s = 3.0` and a single 4 s segment, the
pipeline proceeds normally and emits two chunks (3 s and 1 s) instead of
rejecting the configuration: there is no `InvalidConfigError` (nor any
other raise) anywhere in `split_by_silence_and_chunk`. -/
theorem claim4_no_config_validation :
    normalizeChunks 5 3 [List.replicate 4000 (0:Int)]
      = [List.replicate 3000 0, List.replicate 1000 0] := by
  unfold normalizeChunks
  rw [mergeLoop_cons_lt 5 _ _ (by norm_num [durS])]
  rw [show mergeInner 5 (List.replicate 4000 (0:Int)) [] = (List.replicate 4000 0, [])
    from rfl]
  rw [mergeLoop_nil, show maxMsOf 3 = 3000 from by norm_num [maxMsOf, pyInt]; rfl]
  rw [splitPhase_cons, splitPhase_nil, List.append_nil]
  rw [splitChunk, if_neg (by rw [List.length_replicate]; norm_num), List.length_replicate]
  rw [splitPiecesAux_step 3000 4000 _
    (by rw [Ne, List.replicate_eq_nil_iff]; norm_num) (by norm_num)]
  rw [List.take_replicate, List.drop_replicate]
  norm_num
  rw [splitPiecesAux_step 3000 3999 _
    (by rw [Ne, List.replicate_eq_nil_iff]; norm_num) (by norm_num)]
  rw [List.take_replicate, List.drop_replicate]
  norm_num
  rw [splitPiecesAux_nil]

/-- Claim C8 evaluation: on a zero-length waveform the source signals no
error.  All raw chunks of an empty waveform are empty, the line-38 filter
removes them, and the pipeline silently returns the empty chunk list
(there is no `EmptyInputError` or any other raise in the source). -/
theorem claim8_silent_empty_result (minS maxS : ℚ) (raw : List Audio)
    (h : ∀ c ∈ raw, c.length = 0) : pipelineChunks minS maxS raw = [] := by
  unfold pipelineChunks
  have hf : raw.filter (fun c => decide (0 < c.length)) = [] := by
    rw [List.filter_eq_nil_iff]
    intro a ha
    simp [h a ha]
  rw [hf]
  rfl

theorem claim8_silent_empty_result_wit :
    (∀ c ∈ ([[]] : List Audio), c.length = 0) ∧
    pipelineChunks 3 8 ([[]] : List Audio) = [] :=
  ⟨by simp, claim8_silent_empty_result 3 8 [[]] (by simp)⟩

/-- Claim C9: per-source failure isolation.  The `try/except` in
`process_csv` records a failing url's error and continues: processing a
url list containing a failing url still processes every url before and
after it, and every url of the list is attempted exactly once in order. -/
theorem claim9_per_source_isolation {U E R : Type} (step : U → Except E R)
    (us vs : List U) (u : U) (e : E) (hu : step u = Except.error e) :
    processCsv step (us ++ u :: vs)
      = processCsv step us ++ (u, Except.error e) :: processCsv step vs ∧
    (processCsv step (us ++ u :: vs)).map Prod.fst = us ++ u :: vs := by
  constructor
  · rw [processCsv_append]
    simp only [processCsv]
    rw [hu]
  · exact processCsv_map_fst step _

theorem claim9_per_source_isolation_wit :
    (fun n => if n = 1 then Except.error 7 else Except.ok n : ℕ → Except ℕ ℕ) 1
      = Except.error 7 ∧
    processCsv (fun n => if n = 1 then Except.error 7 else Except.ok n) ([0] ++ 1 :: [2])
      = processCsv (fun n => if n = 1 then Except.error 7 else Except.ok n) [0]
        ++ (1, Except.error 7)
          :: processCsv (fun n => if n = 1 then Except.error 7 else Except.ok n) [2] ∧
    (processCsv (fun n => if n = 1 then Except.error 7 else Except.ok n)
      ([0] ++ 1 :: [2])).map Prod.fst = [0] ++ 1 :: [2] :=
  ⟨rfl, claim9_per_source_isolation _ [0] [2] 1 7 rfl⟩

/-- Claim C10: termination.  The Phase-A merge loop finishes within
`chunks.length` outer iterations for every configuration (extra fuel does
not change the result), and the Phase-B split loop, whose step is the
truncated integer `int(max_chunk_s * 1000)` milliseconds, finishes within
`c.length` iterations whenever that step is at least 1. -/
theorem claim10_termination (minS maxS : ℚ) (l : List Audio) (c : Audio) (f g : ℕ) :
    (l.length ≤ f → mergeLoopAux minS f l = mergeLoop minS l) ∧
    (1 ≤ maxMsOf maxS → c.length ≤ g →
      splitPiecesAux (maxMsOf maxS) g c = splitPiecesAux (maxMsOf maxS) c.length c) := by
  constructor
  · intro hf
    exact mergeLoopAux_congr minS f l.length l hf (le_refl _)
  · intro hm hg
    exact splitPiecesAux_congr (maxMsOf maxS) hm g c.length c hg (le_refl _)

theorem claim10_termination_wit :
    ([[0]] : List Audio).length ≤ 5 ∧ 1 ≤ maxMsOf 8 ∧ ([0, 0] : Audio).length ≤ 9 ∧
    mergeLoopAux 3 5 [[0]] = mergeLoop 3 [[0]] ∧
    splitPiecesAux (maxMsOf 8) 9 [0, 0]
      = splitPiecesAux (maxMsOf 8) ([0, 0] : Audio).length [0, 0] :=
  ⟨by norm_num, by norm_num [maxMsOf, pyInt], by norm_num,
   (claim10_termination 3 8 [[0]] [0, 0] 5 9).1 (by norm_num),
   (claim10_termination 3 8 [[0]] [0, 0] 5 9).2 (by norm_num [maxMsOf, pyInt]) (by norm_num)⟩
